import Mathlib

/-!
Verification of the statistics-calculator estimation engine
(`src/model/logic.ts`) against its specification.

The engine works over IEEE doubles; we embed it over `ℚ`, which models the
real-number semantics of every arithmetic operation the code performs.
`Math.exp` has no rational counterpart, so functions that call it are
parametrised by an abstract `E : ℚ → ℚ`; every property proved here either
holds for all `E` or only uses the exact value `E 0 = Math.exp 0 = 1`.
`Math.round` is round-half-up, which on the non-negative fractional parts
appearing here coincides with Mathlib's `round` (`⌊x + 1/2⌋`).

The reference table (`referenceTable.json`) is an external data asset, not
part of the source module; all definitions are parametrised by the table,
and concrete instantiations use a table built from the spec's illustrative
rows.
-/

namespace StatCalc

/-- Structure of a single row of the reference table
(`interface ReferenceRow` in `logic.ts`). -/
structure ReferenceRow where
  pregweek : ℚ
  mu : ℚ
  sd : ℚ
deriving DecidableEq

/-- A `{ weeks, days }` pair as produced by `decimalWeeksToTime`. -/
structure WeeksDays where
  weeks : ℤ
  days : ℤ
deriving DecidableEq

/-- The `estimatedAge` field of `GestationalAgeResult`:
a `{weeks, days}` pair, a tag string, or `null`. -/
inductive AgeEstimate where
  | pair (wd : WeeksDays)
  | tag (s : String)
  | absent
deriving DecidableEq

/-- Return type of `estimateGestationalAge` (`interface GestationalAgeResult`). -/
structure GestationalAgeResult where
  estimatedAge : AgeEstimate
  ciMin : Option WeeksDays
  ciMax : Option WeeksDays
deriving DecidableEq

/-- Standard normal CDF, Abramowitz–Stegun approximation (`pnorm` in
`logic.ts`).  `E` stands for `Math.exp`; the coefficients are the exact
decimal literals of the source. -/
def pnorm (E : ℚ → ℚ) (z : ℚ) : ℚ :=
  let t := 1 / (1 + (2316419 / 10000000) * |z|)
  let d := (3989423 / 10000000) * E (-z * z / 2)
  let p := d * t *
    (3193815 / 10000000 +
      t * (-3565638 / 10000000 +
        t * (1781478 / 1000000 +
          t * (-1821256 / 1000000 + t * (1330274 / 1000000)))))
  if 0 < z then 1 - p else p

/-- The scanning loop shared by `interpolate` and `findWeekForMetric`:
walk adjacent pairs `(x0,y0),(x1,y1)`; at the first interval with
`x0 ≤ t ≤ x1` return the linear interpolation (lower endpoint when the
interval is degenerate), otherwise fall through to `none` (the trailing
`return null`). -/
def scanBracket (t : ℚ) : List (ℚ × ℚ) → Option ℚ
  | (x0, y0) :: (x1, y1) :: rest =>
    if x0 ≤ t ∧ t ≤ x1 then
      some (if x1 = x0 then y0 else y0 + (t - x0) * ((y1 - y0) / (x1 - x0)))
    else scanBracket t ((x1, y1) :: rest)
  | _ => none

/-- Linear interpolation (`interpolate` in `logic.ts`): sort the data by
`xKey`, return `null` outside the sorted range, and otherwise scan for the
bracketing interval.  The empty-table case (where the JS code would fault
on `sorted[0]`) is mapped to `none`. -/
def interpolate (x : ℚ) (data : List ReferenceRow)
    (xKey yKey : ReferenceRow → ℚ) : Option ℚ :=
  let sorted := data.mergeSort (fun a b => decide (xKey a ≤ xKey b))
  match sorted.head?, sorted.getLast? with
  | some firstRow, some lastRow =>
    if x < xKey firstRow ∨ xKey lastRow < x then none
    else scanBracket x (sorted.map fun r => (xKey r, yKey r))
  | _, _ => none

/-- One point of the virtual `{ week, val }` dataset of `findWeekForMetric`. -/
structure VPoint where
  week : ℚ
  val : ℚ
deriving DecidableEq

/-- The virtual dataset of `findWeekForMetric`: map each row to
`{ week, val := valueExtractor row }` and sort by `val`. -/
def virtualData (table : List ReferenceRow)
    (valueExtractor : ReferenceRow → ℚ) : List VPoint :=
  (table.map fun row => ⟨row.pregweek, valueExtractor row⟩).mergeSort
    (fun a b => decide (a.val ≤ b.val))

/-- Reverse lookup (`findWeekForMetric` in `logic.ts`): extrapolate linearly
below the smallest virtual value (slope of the first two points, projected
from the first) and above the largest (slope of the last two points,
projected from the last); otherwise interpolate on the bracketing virtual
interval.  Tables with fewer than two rows (on which the JS code would
fault) are mapped to `none`. -/
def findWeekForMetric (table : List ReferenceRow) (targetValue : ℚ)
    (valueExtractor : ReferenceRow → ℚ) : Option ℚ :=
  match virtualData table valueExtractor with
  | p0 :: p1 :: rest =>
    let vd : List VPoint := p0 :: p1 :: rest
    let minVal := p0.val
    let maxVal := (vd.getLast (by simp [vd])).val
    if targetValue < minVal then
      some (p0.week + (targetValue - p0.val) * ((p1.week - p0.week) / (p1.val - p0.val)))
    else if maxVal < targetValue then
      let q0 := vd.getD (vd.length - 2) p0
      let q1 := vd.getD (vd.length - 1) p0
      some (q1.week + (targetValue - q1.val) * ((q1.week - q0.week) / (q1.val - q0.val)))
    else
      scanBracket targetValue (vd.map fun p => (p.val, p.week))
  | _ => none

/-- Conversion of decimal weeks to `{ weeks, days }` (`decimalWeeksToTime`),
with the `days == 7` carry and `null` propagation. -/
def decimalWeeksToTime : Option ℚ → Option WeeksDays
  | none => none
  | some decimalWeeks =>
    let w : ℤ := ⌊decimalWeeks⌋
    let d : ℤ := round ((decimalWeeks - (w : ℚ)) * 7)
    if d = 7 then some ⟨w + 1, 0⟩ else some ⟨w, d⟩

/-- Percentile of a measurement at a gestational age (`getHcPercentile`). -/
def getHcPercentile (E : ℚ → ℚ) (table : List ReferenceRow)
    (weeks days hc_mm : ℚ) : Option ℤ :=
  let ga_weeks := weeks + days / 7
  match interpolate ga_weeks table (fun r => r.pregweek) (fun r => r.mu),
        interpolate ga_weeks table (fun r => r.pregweek) (fun r => r.sd) with
  | some mu_hat, some sd_hat =>
    let z := (hc_mm - mu_hat) / sd_hat
    some (round (pnorm E z * 100))
  | _, _ => none

/-- Gestational-age estimation with confidence interval
(`estimateGestationalAge`). -/
def estimateGestationalAge (table : List ReferenceRow) (hc_mm : ℚ) :
    GestationalAgeResult :=
  let exactWeekMean := findWeekForMetric table hc_mm (fun row => row.mu)
  let estimatedAgeResult : AgeEstimate :=
    match exactWeekMean with
    | none => .absent
    | some w =>
      if 40 < w then .tag "More than 40 weeks"
      else if w < 14 then .tag "Less than 14 weeks"
      else
        match decimalWeeksToTime (some w) with
        | some wd => .pair wd
        | none => .absent
  let minWeek := findWeekForMetric table hc_mm (fun row => row.mu + 2 * row.sd)
  let maxWeek := findWeekForMetric table hc_mm (fun row => row.mu - 2 * row.sd)
  { estimatedAge := estimatedAgeResult
    ciMin := decimalWeeksToTime minWeek
    ciMax := decimalWeeksToTime maxWeek }

/-- Modelled from the spec: `referenceTable.json` is not part of the source
module.  A two-row table built from the spec's illustrative scenario rows
`{week:14, mean:80, sd:6}` and `{week:40, mean:330, sd:12}` (§8), used to
instantiate the table-parametric theorems. -/
def specTable : List ReferenceRow :=
  [⟨14, 80, 6⟩, ⟨40, 330, 12⟩]

/-! ### Elementary facts about the scanning loop -/

/-- The scan of a singleton list falls through to `none`. -/
theorem scanBracket_single (t : ℚ) (a : ℚ × ℚ) : scanBracket t [a] = none := by
  rcases a with ⟨x, y⟩
  rfl

/-- If the target lies between the head abscissa and the last abscissa of a
list with at least two points, the scan finds a bracketing interval. -/
theorem scanBracket_isSome_of_between (t : ℚ) :
    ∀ (l : List (ℚ × ℚ)) (a q : ℚ × ℚ), l ≠ [] →
      (a :: l).getLast? = some q → a.1 ≤ t → t ≤ q.1 →
      ∃ m, scanBracket t (a :: l) = some m
  | [], _, _, hne, _, _, _ => absurd rfl hne
  | [b], a, q, _, hq, ha, htq => by
    rcases a with ⟨x0, y0⟩
    rcases b with ⟨x1, y1⟩
    have hqb : q = (x1, y1) := by simpa using hq.symm
    subst hqb
    have hcond : x0 ≤ t ∧ t ≤ x1 := ⟨ha, htq⟩
    refine ⟨if x1 = x0 then y0 else y0 + (t - x0) * ((y1 - y0) / (x1 - x0)), ?_⟩
    simp [scanBracket, hcond]
  | b :: c :: l, a, q, _, hq, ha, htq => by
    rcases a with ⟨x0, y0⟩
    rcases b with ⟨x1, y1⟩
    by_cases hcond : x0 ≤ t ∧ t ≤ x1
    · refine ⟨if x1 = x0 then y0 else y0 + (t - x0) * ((y1 - y0) / (x1 - x0)), ?_⟩
      simp [scanBracket, hcond]
    · have hx1 : x1 ≤ t := by
        rcases not_and_or.1 hcond with h | h
        · exact absurd ha h
        · linarith [not_le.1 h]
      have hq' : ((x1, y1) :: c :: l).getLast? = some q := by
        simpa using hq
      obtain ⟨m, hm⟩ :=
        scanBracket_isSome_of_between t (c :: l) (x1, y1) q (by simp) hq' hx1 htq
      exact ⟨m, by simpa [scanBracket, hcond] using hm⟩

/-- A successful scan implies the target is at least the head abscissa
(the abscissas being sorted). -/
theorem scanBracket_head_le (t : ℚ) :
    ∀ (l : List (ℚ × ℚ)) (a : ℚ × ℚ) (m : ℚ),
      (a :: l).Pairwise (fun p q => p.1 ≤ q.1) →
      scanBracket t (a :: l) = some m → a.1 ≤ t
  | [], a, m, _, h => by
    rw [scanBracket_single] at h
    exact absurd h (by simp)
  | b :: l, a, m, hp, h => by
    rcases a with ⟨x0, y0⟩
    rcases b with ⟨x1, y1⟩
    by_cases hcond : x0 ≤ t ∧ t ≤ x1
    · exact hcond.1
    · have h' : scanBracket t ((x1, y1) :: l) = some m := by
        simpa [scanBracket, hcond] using h
      have hx1 := scanBracket_head_le t l (x1, y1) m hp.of_cons h'
      have hx01 : x0 ≤ x1 := (List.pairwise_cons.1 hp).1 (x1, y1) (by simp)
      linarith

/-- A successful scan of a monotone list returns at least the head ordinate. -/
theorem scanBracket_head_snd_le (t : ℚ) :
    ∀ (l : List (ℚ × ℚ)) (a : ℚ × ℚ) (m : ℚ),
      (a :: l).Pairwise (fun p q => p.1 ≤ q.1 ∧ p.2 ≤ q.2) →
      scanBracket t (a :: l) = some m → a.2 ≤ m
  | [], a, m, _, h => by
    rw [scanBracket_single] at h
    exact absurd h (by simp)
  | b :: l, a, m, hp, h => by
    rcases a with ⟨x0, y0⟩
    rcases b with ⟨x1, y1⟩
    have hab := (List.pairwise_cons.1 hp).1 (x1, y1) (by simp)
    by_cases hcond : x0 ≤ t ∧ t ≤ x1
    · have hm : m = if x1 = x0 then y0 else y0 + (t - x0) * ((y1 - y0) / (x1 - x0)) := by
        have := h
        simp only [scanBracket, if_pos hcond, Option.some_inj] at this
        exact this.symm
      by_cases hx : x1 = x0
      · simp [hm, hx]
      · have hx01 : x0 < x1 := lt_of_le_of_ne hab.1 (fun hh => hx hh.symm)
        have hslope : 0 ≤ (y1 - y0) / (x1 - x0) :=
          div_nonneg (by linarith [hab.2]) (by linarith)
        have hnn : 0 ≤ (t - x0) * ((y1 - y0) / (x1 - x0)) :=
          mul_nonneg (by linarith [hcond.1]) hslope
        simp only [hm, if_neg hx]
        linarith
    · have h' : scanBracket t ((x1, y1) :: l) = some m := by
        simpa [scanBracket, hcond] using h
      have := scanBracket_head_snd_le t l (x1, y1) m hp.of_cons h'
      linarith [hab.2]

/-- Strict version: if the target is strictly above the head abscissa of a
strictly monotone list, a successful scan returns strictly more than the
head ordinate. -/
theorem scanBracket_head_snd_lt (t : ℚ) :
    ∀ (l : List (ℚ × ℚ)) (a : ℚ × ℚ) (m : ℚ),
      (a :: l).Pairwise (fun p q => p.1 < q.1 ∧ p.2 < q.2) →
      scanBracket t (a :: l) = some m → a.1 < t → a.2 < m
  | [], a, m, _, h, _ => by
    rw [scanBracket_single] at h
    exact absurd h (by simp)
  | b :: l, a, m, hp, h, hat => by
    rcases a with ⟨x0, y0⟩
    rcases b with ⟨x1, y1⟩
    have hab := (List.pairwise_cons.1 hp).1 (x1, y1) (by simp)
    by_cases hcond : x0 ≤ t ∧ t ≤ x1
    · have hm : m = if x1 = x0 then y0 else y0 + (t - x0) * ((y1 - y0) / (x1 - x0)) := by
        have := h
        simp only [scanBracket, if_pos hcond, Option.some_inj] at this
        exact this.symm
      have hx : x1 ≠ x0 := ne_of_gt hab.1
      have hslope : 0 < (y1 - y0) / (x1 - x0) :=
        div_pos (by linarith [hab.2]) (by linarith [hab.1])
      have hpos : 0 < (t - x0) * ((y1 - y0) / (x1 - x0)) :=
        mul_pos (by linarith) hslope
      simp only [hm, if_neg hx]
      linarith
    · have h' : scanBracket t ((x1, y1) :: l) = some m := by
        simpa [scanBracket, hcond] using h
      have hple : ((x1, y1) :: l).Pairwise (fun p q => p.1 ≤ q.1) :=
        hp.of_cons.imp (fun hpq => le_of_lt hpq.1)
      have hx1t : x1 ≤ t := scanBracket_head_le t l (x1, y1) m hple h'
      have hx1t' : x1 < t := by
        rcases lt_or_eq_of_le hx1t with hlt | heq
        · exact hlt
        · exact absurd ⟨by linarith [hab.1], le_of_eq heq.symm⟩ hcond
      have := scanBracket_head_snd_lt t l (x1, y1) m hp.of_cons h' hx1t'
      linarith [hab.2]

/-- In a list that is pairwise monotone in the ordinate, the head ordinate
is at most the last ordinate. -/
theorem head_snd_le_getLast_snd :
    ∀ (l : List (ℚ × ℚ)) (a q : ℚ × ℚ),
      (a :: l).Pairwise (fun p q => p.1 ≤ q.1 ∧ p.2 ≤ q.2) →
      (a :: l).getLast? = some q → a.2 ≤ q.2
  | [], a, q, _, hq => by
    have : a = q := by simpa using hq
    simp [this]
  | b :: l, a, q, hp, hq => by
    have hq' : (b :: l).getLast? = some q := by simpa using hq
    have hbq := head_snd_le_getLast_snd l b q hp.of_cons hq'
    have hab := (List.pairwise_cons.1 hp).1 b (by simp)
    linarith [hab.2]

/-- A successful scan of a monotone list returns at most the last ordinate. -/
theorem scanBracket_le_getLast_snd (t : ℚ) :
    ∀ (l : List (ℚ × ℚ)) (a q : ℚ × ℚ) (m : ℚ),
      (a :: l).Pairwise (fun p q => p.1 ≤ q.1 ∧ p.2 ≤ q.2) →
      (a :: l).getLast? = some q →
      scanBracket t (a :: l) = some m → m ≤ q.2
  | [], a, q, m, _, _, h => by
    rw [scanBracket_single] at h
    exact absurd h (by simp)
  | b :: l, a, q, m, hp, hq, h => by
    rcases a with ⟨x0, y0⟩
    rcases b with ⟨x1, y1⟩
    have hab := (List.pairwise_cons.1 hp).1 (x1, y1) (by simp)
    have hq' : ((x1, y1) :: l).getLast? = some q := by simpa using hq
    have hy1q : y1 ≤ q.2 := head_snd_le_getLast_snd l (x1, y1) q hp.of_cons hq'
    by_cases hcond : x0 ≤ t ∧ t ≤ x1
    · have hm : m = if x1 = x0 then y0 else y0 + (t - x0) * ((y1 - y0) / (x1 - x0)) := by
        have := h
        simp only [scanBracket, if_pos hcond, Option.some_inj] at this
        exact this.symm
      by_cases hx : x1 = x0
      · simp only [hm, if_pos hx]
        linarith [hab.2]
      · have hx01 : x0 < x1 := lt_of_le_of_ne hab.1 (fun hh => hx hh.symm)
        have hsub : x1 - x0 ≠ 0 := by linarith
        have hident : y1 - (y0 + (t - x0) * ((y1 - y0) / (x1 - x0))) =
            (x1 - t) * ((y1 - y0) / (x1 - x0)) := by
          field_simp
          ring
        have hslope : 0 ≤ (y1 - y0) / (x1 - x0) :=
          div_nonneg (by linarith [hab.2]) (by linarith)
        have hnn : 0 ≤ (x1 - t) * ((y1 - y0) / (x1 - x0)) :=
          mul_nonneg (by linarith [hcond.2]) hslope
        simp only [hm, if_neg hx]
        linarith
    · have h' : scanBracket t ((x1, y1) :: l) = some m := by
        simpa [scanBracket, hcond] using h
      exact scanBracket_le_getLast_snd t l (x1, y1) q m hp.of_cons hq' h'

/-- Monotonicity of the scan: on a list sorted in the abscissa with
non-decreasing ordinates, a larger target gets a value at least as large. -/
theorem scanBracket_mono :
    ∀ (l : List (ℚ × ℚ)) (a : ℚ × ℚ) (t1 t2 m1 m2 : ℚ),
      (a :: l).Pairwise (fun p q => p.1 ≤ q.1 ∧ p.2 ≤ q.2) → t1 ≤ t2 →
      scanBracket t1 (a :: l) = some m1 → scanBracket t2 (a :: l) = some m2 →
      m1 ≤ m2
  | [], a, t1, t2, m1, m2, _, _, h1, _ => by
    rw [scanBracket_single] at h1
    exact absurd h1 (by simp)
  | b :: l, a, t1, t2, m1, m2, hp, h12, h1, h2 => by
    rcases a with ⟨x0, y0⟩
    rcases b with ⟨x1, y1⟩
    have hab := (List.pairwise_cons.1 hp).1 (x1, y1) (by simp)
    have hple : ((x0, y0) :: (x1, y1) :: l).Pairwise (fun p q => p.1 ≤ q.1) :=
      hp.imp (fun hpq => hpq.1)
    by_cases hc1 : x0 ≤ t1 ∧ t1 ≤ x1
    · have hm1 : m1 = if x1 = x0 then y0 else y0 + (t1 - x0) * ((y1 - y0) / (x1 - x0)) := by
        have := h1
        simp only [scanBracket, if_pos hc1, Option.some_inj] at this
        exact this.symm
      by_cases hc2 : x0 ≤ t2 ∧ t2 ≤ x1
      · have hm2 : m2 = if x1 = x0 then y0 else y0 + (t2 - x0) * ((y1 - y0) / (x1 - x0)) := by
          have := h2
          simp only [scanBracket, if_pos hc2, Option.some_inj] at this
          exact this.symm
        by_cases hx : x1 = x0
        · simp [hm1, hm2, hx]
        · have hx01 : x0 < x1 := lt_of_le_of_ne hab.1 (fun hh => hx hh.symm)
          have hslope : 0 ≤ (y1 - y0) / (x1 - x0) :=
            div_nonneg (by linarith [hab.2]) (by linarith)
          have hnn : 0 ≤ (t2 - t1) * ((y1 - y0) / (x1 - x0)) :=
            mul_nonneg (by linarith) hslope
          have hexp : (y0 + (t2 - x0) * ((y1 - y0) / (x1 - x0))) -
              (y0 + (t1 - x0) * ((y1 - y0) / (x1 - x0))) =
              (t2 - t1) * ((y1 - y0) / (x1 - x0)) := by
            ring
          simp only [hm1, hm2, if_neg hx]
          linarith
      · have h2' : scanBracket t2 ((x1, y1) :: l) = some m2 := by
          simpa [scanBracket, hc2] using h2
        have hlb : y1 ≤ m2 :=
          scanBracket_head_snd_le t2 l (x1, y1) m2 hp.of_cons h2'
        have hub : m1 ≤ y1 := by
          by_cases hx : x1 = x0
          · simp only [hm1, if_pos hx]
            linarith [hab.2]
          · have hx01 : x0 < x1 := lt_of_le_of_ne hab.1 (fun hh => hx hh.symm)
            have hsub : x1 - x0 ≠ 0 := by
              intro hh
              exact hx (by linarith [sub_eq_zero.1 hh])
            have hs : (y1 - y0) / (x1 - x0) * (x1 - x0) = y1 - y0 :=
              div_mul_cancel₀ _ hsub
            have hslope : 0 ≤ (y1 - y0) / (x1 - x0) :=
              div_nonneg (by linarith [hab.2]) (by linarith)
            have hident : y1 - (y0 + (t1 - x0) * ((y1 - y0) / (x1 - x0))) =
                (x1 - t1) * ((y1 - y0) / (x1 - x0)) := by
              linear_combination (-1 : ℚ) * hs
            have hnn : 0 ≤ (x1 - t1) * ((y1 - y0) / (x1 - x0)) :=
              mul_nonneg (by linarith [hc1.2]) hslope
            simp only [hm1, if_neg hx]
            linarith
        linarith
    · have h1' : scanBracket t1 ((x1, y1) :: l) = some m1 := by
        simpa [scanBracket, hc1] using h1
      have hx1t1 : x1 ≤ t1 :=
        scanBracket_head_le t1 l (x1, y1) m1 hple.of_cons h1'
      have hx0t1 : x0 ≤ t1 :=
        scanBracket_head_le t1 ((x1, y1) :: l) (x0, y0) m1 hple h1
      have ht1x1 : x1 < t1 := by
        rcases lt_or_eq_of_le hx1t1 with hlt | heq
        · exact hlt
        · exact absurd ⟨hx0t1, le_of_eq heq.symm⟩ hc1
      have hc2 : ¬(x0 ≤ t2 ∧ t2 ≤ x1) := by
        rintro ⟨-, hh⟩
        linarith
      have h2' : scanBracket t2 ((x1, y1) :: l) = some m2 := by
        simpa [scanBracket, hc2] using h2
      exact scanBracket_mono l (x1, y1) t1 t2 m1 m2 hp.of_cons h12 h1' h2'

/-- Round-trip: on a strictly monotone list, scanning at `w` to obtain `m`
and then scanning the swapped list at `m` recovers exactly `w`. -/
theorem scanBracket_roundtrip :
    ∀ (l : List (ℚ × ℚ)) (a : ℚ × ℚ) (w m : ℚ),
      (a :: l).Pairwise (fun p q => p.1 < q.1 ∧ p.2 < q.2) →
      scanBracket w (a :: l) = some m →
      scanBracket m ((a :: l).map Prod.swap) = some w
  | [], a, w, m, _, h => by
    rw [scanBracket_single] at h
    exact absurd h (by simp)
  | b :: l, a, w, m, hp, h => by
    rcases a with ⟨x0, y0⟩
    rcases b with ⟨x1, y1⟩
    have hab := (List.pairwise_cons.1 hp).1 (x1, y1) (by simp)
    have hx01 : x0 < x1 := hab.1
    have hy01 : y0 < y1 := hab.2
    have hsubx : x1 - x0 ≠ 0 := by
      intro hh
      have := sub_eq_zero.1 hh
      linarith
    have hsuby : y1 - y0 ≠ 0 := by
      intro hh
      have := sub_eq_zero.1 hh
      linarith
    by_cases hcond : x0 ≤ w ∧ w ≤ x1
    · have hx : x1 ≠ x0 := ne_of_gt hx01
      have hm : m = y0 + (w - x0) * ((y1 - y0) / (x1 - x0)) := by
        have := h
        simp only [scanBracket, if_pos hcond, Option.some_inj, if_neg hx] at this
        exact this.symm
      have hs : (y1 - y0) / (x1 - x0) * (x1 - x0) = y1 - y0 :=
        div_mul_cancel₀ _ hsubx
      have hslope : 0 < (y1 - y0) / (x1 - x0) := div_pos (by linarith) (by linarith)
      have hlo : y0 ≤ m := by
        have : 0 ≤ (w - x0) * ((y1 - y0) / (x1 - x0)) :=
          mul_nonneg (by linarith [hcond.1]) (le_of_lt hslope)
        linarith [hm]
      have hhi : m ≤ y1 := by
        have hident : y1 - (y0 + (w - x0) * ((y1 - y0) / (x1 - x0))) =
            (x1 - w) * ((y1 - y0) / (x1 - x0)) := by
          linear_combination (-1 : ℚ) * hs
        have : 0 ≤ (x1 - w) * ((y1 - y0) / (x1 - x0)) :=
          mul_nonneg (by linarith [hcond.2]) (le_of_lt hslope)
        linarith [hm]
      have hcond' : y0 ≤ m ∧ m ≤ y1 := ⟨hlo, hhi⟩
      have hy : y1 ≠ y0 := ne_of_gt hy01
      have hval : x0 + (m - y0) * ((x1 - x0) / (y1 - y0)) = w := by
        rw [hm]
        field_simp
        ring
      simp only [List.map_cons, Prod.swap_prod_mk, scanBracket, if_pos hcond',
        if_neg hy, hval]
    · have h' : scanBracket w ((x1, y1) :: l) = some m := by
        simpa [scanBracket, hcond] using h
      have hple : ((x1, y1) :: l).Pairwise (fun p q => p.1 ≤ q.1) :=
        hp.of_cons.imp (fun hpq => le_of_lt hpq.1)
      have hx1w : x1 ≤ w := scanBracket_head_le w l (x1, y1) m hple h'
      have hx1w' : x1 < w := by
        rcases lt_or_eq_of_le hx1w with hlt | heq
        · exact hlt
        · exact absurd ⟨by linarith, le_of_eq heq.symm⟩ hcond
      have hy1m : y1 < m := scanBracket_head_snd_lt w l (x1, y1) m hp.of_cons h' hx1w'
      have hcond' : ¬(y0 ≤ m ∧ m ≤ y1) := by
        rintro ⟨-, hh⟩
        linarith
      have ih := scanBracket_roundtrip l (x1, y1) w m hp.of_cons h'
      simp only [List.map_cons, Prod.swap_prod_mk] at ih ⊢
      simpa [scanBracket, hcond'] using ih

/-- Whether the scan falls through depends only on the abscissas. -/
theorem scanBracket_none_congr (t : ℚ) :
    ∀ (l1 l2 : List (ℚ × ℚ)), l1.map Prod.fst = l2.map Prod.fst →
      (scanBracket t l1 = none ↔ scanBracket t l2 = none)
  | [], l2, h => by
    cases l2 with
    | nil => simp
    | cons b l => simp at h
  | [a], l2, h => by
    cases l2 with
    | nil => simp at h
    | cons b l2x =>
      cases l2x with
      | nil => simp [scanBracket_single]
      | cons c l2y => simp at h
  | a1 :: a2 :: l, l2, h => by
    cases l2 with
    | nil => simp at h
    | cons b1 l2x =>
      cases l2x with
      | nil => simp at h
      | cons b2 l2y =>
        rcases a1 with ⟨x0, y0⟩
        rcases a2 with ⟨x1, y1⟩
        rcases b1 with ⟨u0, v0⟩
        rcases b2 with ⟨u1, v1⟩
        simp only [List.map_cons, List.cons.injEq] at h
        obtain ⟨h0, h1, hrest⟩ := h
        subst h0
        subst h1
        by_cases hcond : x0 ≤ t ∧ t ≤ x1
        · simp [scanBracket, hcond]
        · have ih := scanBracket_none_congr t ((x1, y1) :: l) ((x1, v1) :: l2y)
            (by simpa using hrest)
          simpa [scanBracket, hcond] using ih

/-! ### Facts about the interpolator -/

/-- Sorting by a key is the identity on a table already sorted by that key. -/
theorem mergeSort_key_eq_self (data : List ReferenceRow) (xKey : ReferenceRow → ℚ)
    (hsorted : data.Pairwise fun a b => xKey a ≤ xKey b) :
    data.mergeSort (fun a b => decide (xKey a ≤ xKey b)) = data :=
  List.mergeSort_of_sorted (hsorted.imp (fun h => by simpa using h))

/-- On a table sorted by the key and with at least two rows, `interpolate`
returns `none` exactly when the input lies outside the closed interval
between the first and the last key. -/
theorem interpolate_eq_none_iff (x : ℚ) (data : List ReferenceRow)
    (xKey yKey : ReferenceRow → ℚ)
    (hsorted : data.Pairwise fun a b => xKey a ≤ xKey b)
    (firstRow lastRow : ReferenceRow)
    (hh : data.head? = some firstRow) (hl : data.getLast? = some lastRow)
    (hlen : 2 ≤ data.length) :
    interpolate x data xKey yKey = none ↔
      (x < xKey firstRow ∨ xKey lastRow < x) := by
  have hs := mergeSort_key_eq_self data xKey hsorted
  by_cases hout : x < xKey firstRow ∨ xKey lastRow < x
  · simp only [interpolate, hs, hh, hl, if_pos hout]
    simpa using hout
  · simp only [interpolate, hs, hh, hl, if_neg hout]
    push_neg at hout
    rcases data with _ | ⟨a, l⟩
    · simp at hh
    · have ha : a = firstRow := by simpa using hh
      subst ha
      rcases l with _ | ⟨b, l2⟩
      · simp at hlen
      · have hlast : ((a :: b :: l2).map fun r => (xKey r, yKey r)).getLast? =
            some (xKey lastRow, yKey lastRow) := by
          rw [List.getLast?_map, hl]
          rfl
        obtain ⟨m, hm⟩ := scanBracket_isSome_of_between x
          ((b :: l2).map fun r => (xKey r, yKey r))
          (xKey a, yKey a) (xKey lastRow, yKey lastRow)
          (by simp) (by simpa using hlast) hout.1 hout.2
        rw [List.map_cons, hm]
        constructor
        · intro hcontra
          exact absurd hcontra (by simp)
        · intro hcontra
          rcases hcontra with hcx | hcx
          · linarith [hout.1]
          · linarith [hout.2]

/-- Whether the interpolator succeeds does not depend on the value key,
only on the abscissa key. -/
theorem interpolate_none_congr (x : ℚ) (data : List ReferenceRow)
    (xKey yKeyA yKeyB : ReferenceRow → ℚ) :
    (interpolate x data xKey yKeyA = none ↔ interpolate x data xKey yKeyB = none) := by
  simp only [interpolate]
  cases hh : (data.mergeSort (fun a b => decide (xKey a ≤ xKey b))).head? with
  | none => simp
  | some firstRow =>
    cases hl : (data.mergeSort (fun a b => decide (xKey a ≤ xKey b))).getLast? with
    | none => simp
    | some lastRow =>
      by_cases hout : x < xKey firstRow ∨ xKey lastRow < x
      · simp [hout]
      · simp only [if_neg hout]
        refine scanBracket_none_congr x _ _ ?_
        simp [List.map_map, Function.comp]

/-! ### The percentile operation (claims C2, C3) -/

/-- Value of the CDF approximation at `z = 0`, given only `exp 0 = 1`:
the polynomial weights sum to `1.2533137`, and
`0.3989423 * 1.2533137 = 0.49999985009951`. -/
theorem pnorm_zero (E : ℚ → ℚ) (hE : E 0 = 1) :
    pnorm E 0 = 49999985009951 / 100000000000000 := by
  norm_num [pnorm, hE]

/-- C2: `getHcPercentile` is `Absent` exactly when the decimal gestational
age `weeks + days/7` falls outside the closed interval from the first to
the last table week; inside that interval it returns a number. -/
theorem getHcPercentile_none_iff (E : ℚ → ℚ) (table : List ReferenceRow)
    (hsorted : table.Pairwise fun a b => a.pregweek ≤ b.pregweek)
    (firstRow lastRow : ReferenceRow)
    (hh : table.head? = some firstRow) (hl : table.getLast? = some lastRow)
    (hlen : 2 ≤ table.length) (weeks days hc_mm : ℚ) :
    getHcPercentile E table weeks days hc_mm = none ↔
      (weeks + days / 7 < firstRow.pregweek ∨
        lastRow.pregweek < weeks + days / 7) := by
  have hmu := interpolate_eq_none_iff (weeks + days / 7) table (fun r => r.pregweek)
    (fun r => r.mu) hsorted firstRow lastRow hh hl hlen
  have hsd := interpolate_eq_none_iff (weeks + days / 7) table (fun r => r.pregweek)
    (fun r => r.sd) hsorted firstRow lastRow hh hl hlen
  simp only [getHcPercentile]
  cases h1 : interpolate (weeks + days / 7) table (fun r => r.pregweek) (fun r => r.mu) with
  | none =>
    simp only [h1]
    exact iff_of_true trivial (hmu.1 h1)
  | some mu_hat =>
    cases h2 : interpolate (weeks + days / 7) table (fun r => r.pregweek) (fun r => r.sd) with
    | none =>
      exact absurd (hmu.2 (hsd.1 h2)) (by simp [h1])
    | some sd_hat =>
      simp only [h1, h2]
      refine iff_of_false (by simp) ?_
      intro hout
      exact absurd (hmu.2 hout) (by simp [h1])

/-- C3: at a valid age inside the table domain, a measurement exactly at
the interpolated mean yields the 50th percentile. -/
theorem getHcPercentile_at_mean (E : ℚ → ℚ) (hE : E 0 = 1)
    (table : List ReferenceRow) (weeks days m : ℚ)
    (hw14 : 14 ≤ weeks) (hw40 : weeks ≤ 40) (hd0 : 0 ≤ days) (hd6 : days ≤ 6)
    (hmu : interpolate (weeks + days / 7) table (fun r => r.pregweek)
      (fun r => r.mu) = some m) :
    getHcPercentile E table weeks days m = some 50 := by
  have hsd : interpolate (weeks + days / 7) table (fun r => r.pregweek)
      (fun r => r.sd) ≠ none := by
    intro hnone
    have := (interpolate_none_congr (weeks + days / 7) table (fun r => r.pregweek)
      (fun r => r.mu) (fun r => r.sd)).2 hnone
    simp [this] at hmu
  cases h2 : interpolate (weeks + days / 7) table (fun r => r.pregweek)
      (fun r => r.sd) with
  | none => exact absurd h2 hsd
  | some sd_hat =>
    simp only [getHcPercentile, hmu, h2]
    have hz : (m - m) / sd_hat = 0 := by simp
    rw [hz, pnorm_zero E hE]
    have hround : round ((49999985009951 / 100000000000000 : ℚ) * 100) = 50 := by
      rw [round_eq]
      norm_num [Int.floor_eq_iff]
    rw [hround]

/-! ### The time converter (claim C6) and the CDF boundary (claim C7) -/

/-- A present decimal-week input always converts to some pair. -/
theorem decimalWeeksToTime_some (q : ℚ) :
    ∃ wd, decimalWeeksToTime (some q) = some wd := by
  simp only [decimalWeeksToTime]
  split_ifs <;> exact ⟨_, rfl⟩

/-- C6: the converter floors the weeks, rounds the scaled remainder to
days, normalises a rounded `7` days to the next week, and propagates
`null`. -/
theorem decimalWeeksToTime_spec :
    decimalWeeksToTime none = none ∧
    ∀ dw : ℚ,
      (round ((dw - ((⌊dw⌋ : ℤ) : ℚ)) * 7) = 7 →
        decimalWeeksToTime (some dw) = some ⟨⌊dw⌋ + 1, 0⟩) ∧
      (round ((dw - ((⌊dw⌋ : ℤ) : ℚ)) * 7) ≠ 7 →
        decimalWeeksToTime (some dw) = some ⟨⌊dw⌋, round ((dw - ((⌊dw⌋ : ℤ) : ℚ)) * 7)⟩) := by
  refine ⟨rfl, fun dw => ⟨fun h7 => ?_, fun h7 => ?_⟩⟩
  all_goals rw [Int.self_sub_floor] at h7
  · simp [decimalWeeksToTime, h7]
  · simp [decimalWeeksToTime, h7, Int.self_sub_floor]

/-- C7 counterexample: at `z = 0` (where the code evaluates `exp` only at
`0`, and `exp 0 = 1` exactly) the approximation does not return `0.5`, and
the antisymmetry identity fails at that same point since `-0 = 0`. -/
theorem pnorm_zero_ne_half :
    pnorm (fun _ => 1) 0 ≠ 1 / 2 ∧
    ¬ pnorm (fun _ => 1) (-0) = 1 - pnorm (fun _ => 1) 0 := by
  have h : pnorm (fun _ => 1) 0 = 49999985009951 / 100000000000000 :=
    pnorm_zero (fun _ => 1) rfl
  constructor
  · rw [h]
    norm_num
  · rw [show (-0 : ℚ) = 0 by norm_num, h]
    norm_num

/-- C7 (amended): the approximation at `0` equals `0.49999985009951`
exactly — within `1.5e-7` of one half but not equal to it — and the
antisymmetry `cdf (-z) = 1 - cdf z` holds for every `z ≠ 0`. -/
theorem pnorm_antisymm (E : ℚ → ℚ) (hE : E 0 = 1) :
    pnorm E 0 = 49999985009951 / 100000000000000 ∧
    |pnorm E 0 - 1 / 2| < 15 / 100000000 ∧
    ∀ z : ℚ, z ≠ 0 → pnorm E (-z) = 1 - pnorm E z := by
  refine ⟨pnorm_zero E hE, ?_, fun z hz => ?_⟩
  · rw [pnorm_zero E hE, abs_sub_lt_iff]
    refine ⟨by norm_num, by norm_num⟩
  · have habs : |(-z)| = |z| := abs_neg z
    have harg : (-(-z) * (-z) / 2 : ℚ) = -z * z / 2 := by ring
    rcases lt_or_gt_of_ne hz with hneg | hpos
    · have h1 : ¬ (0 : ℚ) < z := by linarith
      have h2 : (0 : ℚ) < -z := by linarith
      simp only [pnorm, habs, harg, if_pos h2, if_neg h1]
    · have h1 : (0 : ℚ) < z := hpos
      have h2 : ¬ (0 : ℚ) < -z := by linarith
      simp only [pnorm, habs, harg, if_pos h1, if_neg h2]
      ring

/-! ### The age estimator (claim C1) -/

/-- C1: the point estimate is tagged "More than 40 weeks" above week 40 and
"Less than 14 weeks" below week 14, and converted to a pair otherwise; the
two confidence bounds always pass through the `{weeks, days}` conversion
and are never tagged. -/
theorem estimateGestationalAge_spec (table : List ReferenceRow) (hc_mm w : ℚ)
    (hmean : findWeekForMetric table hc_mm (fun row => row.mu) = some w) :
    (40 < w → (estimateGestationalAge table hc_mm).estimatedAge =
      AgeEstimate.tag "More than 40 weeks") ∧
    (w < 14 → (estimateGestationalAge table hc_mm).estimatedAge =
      AgeEstimate.tag "Less than 14 weeks") ∧
    (14 ≤ w → w ≤ 40 → ∃ wd, decimalWeeksToTime (some w) = some wd ∧
      (estimateGestationalAge table hc_mm).estimatedAge = AgeEstimate.pair wd) ∧
    (estimateGestationalAge table hc_mm).ciMin =
      decimalWeeksToTime (findWeekForMetric table hc_mm (fun row => row.mu + 2 * row.sd)) ∧
    (estimateGestationalAge table hc_mm).ciMax =
      decimalWeeksToTime (findWeekForMetric table hc_mm (fun row => row.mu - 2 * row.sd)) := by
  refine ⟨?_, ?_, ?_, ?_, ?_⟩
  · intro h40
    simp [estimateGestationalAge, hmean, if_pos h40]
  · intro h14
    have hn40 : ¬ 40 < w := by linarith
    simp [estimateGestationalAge, hmean, hn40, h14]
  · intro h14 h40
    obtain ⟨wd, hwd⟩ := decimalWeeksToTime_some w
    refine ⟨wd, hwd, ?_⟩
    have hn40 : ¬ 40 < w := by linarith
    have hn14 : ¬ w < 14 := by linarith
    simp [estimateGestationalAge, hmean, hn40, hn14, hwd]
  · simp [estimateGestationalAge]
  · simp [estimateGestationalAge]

/-! ### The inverse estimator (claims C4, C5) -/

/-- The virtual dataset is sorted by value. -/
theorem virtualData_sorted (table : List ReferenceRow) (ext : ReferenceRow → ℚ) :
    (virtualData table ext).Pairwise (fun p q => p.val ≤ q.val) := by
  have h := @List.sorted_mergeSort VPoint (fun a b => decide (a.val ≤ b.val))
    (fun a b c hab hbc => by
      simp only [decide_eq_true_eq] at *
      exact le_trans hab hbc)
    (fun a b => by
      simp only [Bool.or_eq_true, decide_eq_true_eq]
      exact le_total a.val b.val)
    (table.map fun row => ⟨row.pregweek, ext row⟩)
  exact h.imp (fun hpq => by simpa using hpq)

/-- The virtual dataset has the same number of points as the table has rows. -/
theorem virtualData_length (table : List ReferenceRow) (ext : ReferenceRow → ℚ) :
    (virtualData table ext).length = table.length := by
  simp [virtualData]

/-- C4: with at least two table rows, the inverse estimator always
produces a week estimate — its trailing `null` branch is unreachable, the
out-of-range cases being covered by extrapolation. -/
theorem findWeekForMetric_isSome (table : List ReferenceRow)
    (valueExtractor : ReferenceRow → ℚ) (targetValue : ℚ)
    (hlen : 2 ≤ table.length) :
    ∃ w, findWeekForMetric table targetValue valueExtractor = some w := by
  have hsort := virtualData_sorted table valueExtractor
  have hlen' : 2 ≤ (virtualData table valueExtractor).length := by
    rw [virtualData_length]
    exact hlen
  cases hvd : virtualData table valueExtractor with
  | nil =>
    rw [hvd] at hlen'
    simp at hlen'
  | cons p0 l =>
    cases l with
    | nil =>
      rw [hvd] at hlen'
      simp at hlen'
    | cons p1 rest =>
      rw [hvd] at hsort
      simp only [findWeekForMetric, hvd]
      by_cases hlow : targetValue < p0.val
      · rw [if_pos hlow]
        exact ⟨_, rfl⟩
      · rw [if_neg hlow]
        by_cases hhigh : ((p0 :: p1 :: rest).getLast (by simp)).val < targetValue
        · rw [if_pos hhigh]
          exact ⟨_, rfl⟩
        · rw [if_neg hhigh]
          have hlast : ((p0 :: p1 :: rest).map fun p => (p.val, p.week)).getLast? =
              some (((p0 :: p1 :: rest).getLast (by simp)).val,
                ((p0 :: p1 :: rest).getLast (by simp)).week) := by
            rw [List.getLast?_map, List.getLast?_eq_getLast (p0 :: p1 :: rest) (by simp)]
            rfl
          obtain ⟨m, hm⟩ := scanBracket_isSome_of_between targetValue
            ((p1 :: rest).map fun p => (p.val, p.week))
            (p0.val, p0.week)
            (((p0 :: p1 :: rest).getLast (by simp)).val,
              ((p0 :: p1 :: rest).getLast (by simp)).week)
            (by simp) (by simpa using hlast) (not_lt.1 hlow) (not_lt.1 hhigh)
          rw [List.map_cons]
          exact ⟨m, hm⟩

/-- Positions `length - 2` and `length - 1` of a list ending in two given
points are those two points. -/
theorem getD_last_two (pre : List VPoint) (q0 q1 d : VPoint) :
    ((pre ++ [q0, q1]).getD ((pre ++ [q0, q1]).length - 2) d = q0) ∧
    ((pre ++ [q0, q1]).getD ((pre ++ [q0, q1]).length - 1) d = q1) := by
  have hlen : (pre ++ [q0, q1]).length = pre.length + 2 := by simp
  constructor
  · rw [List.getD_eq_getElem?_getD, hlen]
    have h2 : pre.length + 2 - 2 = pre.length := by omega
    rw [h2, List.getElem?_append_right (le_refl _)]
    simp
  · rw [List.getD_eq_getElem?_getD, hlen]
    have h2 : pre.length + 2 - 1 = pre.length + 1 := by omega
    rw [h2, List.getElem?_append_right (by omega)]
    simp

/-- C5: below the smallest virtual value the result is the backward linear
projection from the first virtual point with the slope of the first two;
above the largest it is the forward projection from the last virtual point
with the slope of the last two. -/
theorem findWeekForMetric_extrapolates (table : List ReferenceRow)
    (valueExtractor : ReferenceRow → ℚ) (targetValue : ℚ)
    (p0 p1 : VPoint) (rest : List VPoint)
    (hvd : virtualData table valueExtractor = p0 :: p1 :: rest) :
    (targetValue < p0.val →
      findWeekForMetric table targetValue valueExtractor =
        some (p0.week + (targetValue - p0.val) *
          ((p1.week - p0.week) / (p1.val - p0.val)))) ∧
    (∀ (pre : List VPoint) (q0 q1 : VPoint),
      virtualData table valueExtractor = pre ++ [q0, q1] →
      q1.val < targetValue →
      findWeekForMetric table targetValue valueExtractor =
        some (q1.week + (targetValue - q1.val) *
          ((q1.week - q0.week) / (q1.val - q0.val)))) := by
  constructor
  · intro hlow
    simp only [findWeekForMetric, hvd]
    rw [if_pos hlow]
  · intro pre q0 q1 happ hgt
    have hsort : (p0 :: p1 :: rest).Pairwise (fun p q => p.val ≤ q.val) := by
      rw [← hvd]
      exact virtualData_sorted table valueExtractor
    have hlist : p0 :: p1 :: rest = pre ++ [q0, q1] := hvd.symm.trans happ
    have hq1mem : q1 ∈ p0 :: p1 :: rest := by
      rw [hlist]
      simp
    have hp0q1 : p0.val ≤ q1.val := by
      rcases List.mem_cons.1 hq1mem with hq | hq
      · exact le_of_eq (by rw [hq])
      · exact (List.pairwise_cons.1 hsort).1 q1 hq
    have hgl : (p0 :: p1 :: rest).getLast? = some q1 := by
      rw [hlist, show pre ++ [q0, q1] = (pre ++ [q0]) ++ [q1] by simp,
        List.getLast?_concat]
    have hgl' : (p0 :: p1 :: rest).getLast (by simp) = q1 := by
      rw [List.getLast?_eq_getLast (p0 :: p1 :: rest) (by simp)] at hgl
      exact Option.some_injective _ hgl
    simp only [findWeekForMetric, hvd]
    rw [if_neg (not_lt.2 (le_trans hp0q1 (le_of_lt hgt))), hgl', if_pos hgt,
      hlist, (getD_last_two pre q0 q1 p0).1, (getD_last_two pre q0 q1 p0).2]

/-! ### Interpolation monotonicity (claim C9) -/

/-- C9: on a table sorted by week with non-decreasing means, the
interpolated mean is monotone in the age. -/
theorem interpolate_mono (table : List ReferenceRow)
    (hweek : table.Pairwise fun a b => a.pregweek ≤ b.pregweek)
    (hmu : table.Pairwise fun a b => a.mu ≤ b.mu)
    (a1 a2 m1 m2 : ℚ) (h12 : a1 < a2)
    (h1 : interpolate a1 table (fun r => r.pregweek) (fun r => r.mu) = some m1)
    (h2 : interpolate a2 table (fun r => r.pregweek) (fun r => r.mu) = some m2) :
    m1 ≤ m2 := by
  have hs := mergeSort_key_eq_self table (fun r => r.pregweek) hweek
  rcases table with _ | ⟨r0, tl⟩
  · simp [interpolate] at h1
  · obtain ⟨lastRow, hgl⟩ : ∃ q, (r0 :: tl).getLast? = some q :=
      ⟨_, List.getLast?_eq_getLast _ (by simp)⟩
    simp only [interpolate, hs, List.head?_cons, hgl] at h1 h2
    by_cases ho1 : a1 < r0.pregweek ∨ lastRow.pregweek < a1
    · rw [if_pos ho1] at h1
      exact absurd h1 (by simp)
    · rw [if_neg ho1] at h1
      by_cases ho2 : a2 < r0.pregweek ∨ lastRow.pregweek < a2
      · rw [if_pos ho2] at h2
        exact absurd h2 (by simp)
      · rw [if_neg ho2] at h2
        rw [List.map_cons] at h1 h2
        have hpw : (((r0 :: tl).map fun r => ((r.pregweek : ℚ), (r.mu : ℚ))).Pairwise
            (fun p q => p.1 ≤ q.1 ∧ p.2 ≤ q.2)) := by
          rw [List.pairwise_map]
          exact (hweek.and hmu).imp (fun hpq => hpq)
        rw [List.map_cons] at hpw
        exact scanBracket_mono (tl.map fun r => (r.pregweek, r.mu))
          (r0.pregweek, r0.mu) a1 a2 m1 m2 hpw (le_of_lt h12) h1 h2

/-! ### The round-trip law (claim C8) -/

/-- The virtual dataset of the mean extractor over a table with strictly
increasing means is the mapped table itself. -/
theorem virtualData_mu_eq (table : List ReferenceRow)
    (hmu : table.Pairwise fun a b => a.mu < b.mu) :
    virtualData table (fun r => r.mu) =
      table.map fun row => ⟨row.pregweek, row.mu⟩ := by
  apply List.mergeSort_of_sorted
  rw [List.pairwise_map]
  exact hmu.imp (fun hpq => by simpa using le_of_lt hpq)

/-- C8: on a table sorted by week with strictly increasing means, the
inverse estimator applied to an interpolated mean recovers the age exactly. -/
theorem findWeekForMetric_roundtrip (table : List ReferenceRow)
    (hweek : table.Pairwise fun a b => a.pregweek < b.pregweek)
    (hmu : table.Pairwise fun a b => a.mu < b.mu)
    (w m : ℚ)
    (hinterp : interpolate w table (fun r => r.pregweek) (fun r => r.mu) = some m) :
    findWeekForMetric table m (fun r => r.mu) = some w := by
  have hs := mergeSort_key_eq_self table (fun r => r.pregweek)
    (hweek.imp (fun hpq => le_of_lt hpq))
  have hvd := virtualData_mu_eq table hmu
  rcases table with _ | ⟨r0, tl⟩
  · simp [interpolate] at hinterp
  · obtain ⟨lastRow, hgl⟩ : ∃ q, (r0 :: tl).getLast? = some q :=
      ⟨_, List.getLast?_eq_getLast _ (by simp)⟩
    simp only [interpolate, hs, List.head?_cons, hgl] at hinterp
    by_cases hout : w < r0.pregweek ∨ lastRow.pregweek < w
    · rw [if_pos hout] at hinterp
      exact absurd hinterp (by simp)
    · rw [if_neg hout] at hinterp
      rcases tl with _ | ⟨r1, tl2⟩
      · rw [List.map_cons, List.map_nil, scanBracket_single] at hinterp
        exact absurd hinterp (by simp)
      · rw [List.map_cons] at hinterp
        have hpw : (((r0 :: r1 :: tl2).map fun r => ((r.pregweek : ℚ), (r.mu : ℚ))).Pairwise
            (fun p q => p.1 < q.1 ∧ p.2 < q.2)) := by
          rw [List.pairwise_map]
          exact (hweek.and hmu).imp (fun hpq => hpq)
        rw [List.map_cons] at hpw
        have hswap := scanBracket_roundtrip ((r1 :: tl2).map fun r => (r.pregweek, r.mu))
          (r0.pregweek, r0.mu) w m hpw hinterp
        have hple : (((r0.pregweek : ℚ), (r0.mu : ℚ)) ::
            ((r1 :: tl2).map fun r => (r.pregweek, r.mu))).Pairwise
            (fun p q => p.1 ≤ q.1 ∧ p.2 ≤ q.2) :=
          hpw.imp (fun hpq => ⟨le_of_lt hpq.1, le_of_lt hpq.2⟩)
        have hlb : r0.mu ≤ m :=
          scanBracket_head_snd_le w ((r1 :: tl2).map fun r => (r.pregweek, r.mu))
            (r0.pregweek, r0.mu) m hple hinterp
        have hglm : (((r0.pregweek : ℚ), (r0.mu : ℚ)) ::
            ((r1 :: tl2).map fun r => (r.pregweek, r.mu))).getLast? =
            some (lastRow.pregweek, lastRow.mu) := by
          have h0 : (List.map (fun r => ((r.pregweek : ℚ), (r.mu : ℚ)))
              (r0 :: r1 :: tl2)).getLast? = some (lastRow.pregweek, lastRow.mu) := by
            rw [List.getLast?_map, hgl]
            rfl
          rw [List.map_cons] at h0
          exact h0
        have hub : m ≤ lastRow.mu :=
          scanBracket_le_getLast_snd w ((r1 :: tl2).map fun r => (r.pregweek, r.mu))
            (r0.pregweek, r0.mu) (lastRow.pregweek, lastRow.mu) m hple hglm hinterp
        have hvd' : virtualData (r0 :: r1 :: tl2) (fun r => r.mu) =
            (⟨r0.pregweek, r0.mu⟩ : VPoint) :: (⟨r1.pregweek, r1.mu⟩ : VPoint) ::
              (tl2.map fun row => ⟨row.pregweek, row.mu⟩) := by
          rw [hvd, List.map_cons, List.map_cons]
        simp only [findWeekForMetric, hvd']
        have hlastv : (((⟨r0.pregweek, r0.mu⟩ : VPoint) ::
            (⟨r1.pregweek, r1.mu⟩ : VPoint) ::
              (tl2.map fun row => ⟨row.pregweek, row.mu⟩)).getLast (by simp)) =
            (⟨lastRow.pregweek, lastRow.mu⟩ : VPoint) := by
          have h1 : ((r0 :: r1 :: tl2).map fun row =>
              (⟨row.pregweek, row.mu⟩ : VPoint)).getLast? =
              some ⟨lastRow.pregweek, lastRow.mu⟩ := by
            rw [List.getLast?_map, hgl]
            rfl
          rw [List.map_cons, List.map_cons] at h1
          rw [List.getLast?_eq_getLast _ (by simp)] at h1
          exact Option.some_injective _ h1
        rw [if_neg (not_lt.2 hlb), hlastv, if_neg (by simpa using not_lt.2 hub)]
        have hlists : (((⟨r0.pregweek, r0.mu⟩ : VPoint) ::
            (⟨r1.pregweek, r1.mu⟩ : VPoint) ::
              (tl2.map fun row => ⟨row.pregweek, row.mu⟩)).map
                fun p => (p.val, p.week)) =
            (((r0.pregweek : ℚ), (r0.mu : ℚ)) ::
              ((r1 :: tl2).map fun r => (r.pregweek, r.mu))).map Prod.swap := by
          simp [List.map_map, Function.comp]
        rw [hlists]
        exact hswap

/-! ### Days-range invariant (claim C10) -/

/-- Any pair produced by the converter has its days component in 0..6. -/
theorem decimalWeeksToTime_days_bounds (dw : ℚ) (wd : WeeksDays)
    (h : decimalWeeksToTime (some dw) = some wd) :
    0 ≤ wd.days ∧ wd.days ≤ 6 := by
  have hfl := Int.floor_le dw
  have hfu := Int.lt_floor_add_one dw
  have hd0 : 0 ≤ round ((dw - ((⌊dw⌋ : ℤ) : ℚ)) * 7) := by
    rw [round_eq]
    apply Int.le_floor.2
    push_cast
    linarith
  have hd8 : round ((dw - ((⌊dw⌋ : ℤ) : ℚ)) * 7) < 8 := by
    rw [round_eq]
    apply Int.floor_lt.2
    push_cast
    linarith
  simp only [decimalWeeksToTime] at h
  by_cases h7 : round ((dw - ((⌊dw⌋ : ℤ) : ℚ)) * 7) = 7
  · rw [if_pos h7] at h
    have hwd : (⟨⌊dw⌋ + 1, 0⟩ : WeeksDays) = wd := Option.some_inj.1 h
    rw [← hwd]
    exact ⟨le_refl 0, by norm_num⟩
  · rw [if_neg h7] at h
    have hwd : (⟨⌊dw⌋, round ((dw - ((⌊dw⌋ : ℤ) : ℚ)) * 7)⟩ : WeeksDays) = wd :=
      Option.some_inj.1 h
    rw [← hwd]
    refine ⟨by simpa using hd0, ?_⟩
    have h6 : round ((dw - ((⌊dw⌋ : ℤ) : ℚ)) * 7) ≤ 6 := by omega
    simpa using h6

/-- C10: every pair produced by `decimalWeeksToTime`, and hence every pair
appearing in an estimation result (point estimate or either confidence
bound), has an integer days component between 0 and 6 inclusive — days 7
never appears. -/
theorem days_component_in_range :
    (∀ (dw : ℚ) (wd : WeeksDays), decimalWeeksToTime (some dw) = some wd →
      0 ≤ wd.days ∧ wd.days ≤ 6) ∧
    (∀ (table : List ReferenceRow) (hc_mm : ℚ) (wd : WeeksDays),
      ((estimateGestationalAge table hc_mm).estimatedAge = AgeEstimate.pair wd ∨
        (estimateGestationalAge table hc_mm).ciMin = some wd ∨
        (estimateGestationalAge table hc_mm).ciMax = some wd) →
      0 ≤ wd.days ∧ wd.days ≤ 6) := by
  refine ⟨fun dw wd h => decimalWeeksToTime_days_bounds dw wd h, ?_⟩
  intro table hc_mm wd hsrc
  rcases hsrc with h | h | h
  · simp only [estimateGestationalAge] at h
    cases hfw : findWeekForMetric table hc_mm (fun row => row.mu) with
    | none => simp [hfw] at h
    | some v =>
      rw [hfw] at h
      have h2 : (if 40 < v then AgeEstimate.tag "More than 40 weeks"
          else if v < 14 then AgeEstimate.tag "Less than 14 weeks"
          else match decimalWeeksToTime (some v) with
            | some wdx => AgeEstimate.pair wdx
            | none => AgeEstimate.absent) = AgeEstimate.pair wd := h
      by_cases h40 : 40 < v
      · rw [if_pos h40] at h2
        exact absurd h2 (by simp)
      · rw [if_neg h40] at h2
        by_cases h14 : v < 14
        · rw [if_pos h14] at h2
          exact absurd h2 (by simp)
        · rw [if_neg h14] at h2
          cases hdw : decimalWeeksToTime (some v) with
          | none =>
            obtain ⟨wd', hwd'⟩ := decimalWeeksToTime_some v
            rw [hdw] at hwd'
            exact absurd hwd' (by simp)
          | some wd' =>
            rw [hdw] at h2
            have heq : wd' = wd := by
              simpa using h2
            rw [← heq]
            exact decimalWeeksToTime_days_bounds v wd' hdw
  · simp only [estimateGestationalAge] at h
    cases hfw : findWeekForMetric table hc_mm (fun row => row.mu + 2 * row.sd) with
    | none =>
      rw [hfw] at h
      exact absurd h (by simp [decimalWeeksToTime])
    | some v =>
      rw [hfw] at h
      exact decimalWeeksToTime_days_bounds v wd h
  · simp only [estimateGestationalAge] at h
    cases hfw : findWeekForMetric table hc_mm (fun row => row.mu - 2 * row.sd) with
    | none =>
      rw [hfw] at h
      exact absurd h (by simp [decimalWeeksToTime])
    | some v =>
      rw [hfw] at h
      exact decimalWeeksToTime_days_bounds v wd h

/-! ### Concrete evaluations on the illustrative table -/

/-- The illustrative table is weakly sorted by week. -/
theorem specTable_sorted_week :
    specTable.Pairwise (fun a b => a.pregweek ≤ b.pregweek) := by
  norm_num [specTable, List.pairwise_cons]

/-- The illustrative table is strictly sorted by week. -/
theorem specTable_sorted_week_strict :
    specTable.Pairwise (fun a b => a.pregweek < b.pregweek) := by
  norm_num [specTable, List.pairwise_cons]

/-- The illustrative table has weakly increasing means. -/
theorem specTable_sorted_mu :
    specTable.Pairwise (fun a b => a.mu ≤ b.mu) := by
  norm_num [specTable, List.pairwise_cons]

/-- The illustrative table has strictly increasing means. -/
theorem specTable_sorted_mu_strict :
    specTable.Pairwise (fun a b => a.mu < b.mu) := by
  norm_num [specTable, List.pairwise_cons]

/-- The virtual dataset of the mean extractor over the illustrative table. -/
theorem specTable_virtual_mu :
    virtualData specTable (fun r => r.mu) = [⟨14, 80⟩, ⟨40, 330⟩] := by
  have hs : ([⟨14, 80⟩, ⟨40, 330⟩] : List VPoint).mergeSort
      (fun a b => decide (a.val ≤ b.val)) = [⟨14, 80⟩, ⟨40, 330⟩] :=
    List.mergeSort_of_sorted (by norm_num [List.pairwise_cons])
  simp only [virtualData, specTable, List.map_cons, List.map_nil]
  exact hs

/-- Interpolated mean of the illustrative table at week 20. -/
theorem interpolate_specTable_20 :
    interpolate 20 specTable (fun r => r.pregweek) (fun r => r.mu) =
      some (1790 / 13) := by
  have hs := mergeSort_key_eq_self specTable (fun r => r.pregweek) specTable_sorted_week
  simp only [interpolate, hs]
  simp only [specTable, List.head?_cons, List.getLast?_cons_cons,
    List.getLast?_singleton, List.map_cons, List.map_nil, scanBracket]
  norm_num

/-- Interpolated mean of the illustrative table at week 30. -/
theorem interpolate_specTable_30 :
    interpolate 30 specTable (fun r => r.pregweek) (fun r => r.mu) =
      some (3040 / 13) := by
  have hs := mergeSort_key_eq_self specTable (fun r => r.pregweek) specTable_sorted_week
  simp only [interpolate, hs]
  simp only [specTable, List.head?_cons, List.getLast?_cons_cons,
    List.getLast?_singleton, List.map_cons, List.map_nil, scanBracket]
  norm_num

/-- Inverse estimate on the mean curve of the illustrative table at 205 mm. -/
theorem findWeek_specTable_205 :
    findWeekForMetric specTable 205 (fun r => r.mu) = some 27 := by
  simp only [findWeekForMetric, specTable_virtual_mu]
  norm_num [scanBracket]

/-- Conversion of the whole week 27. -/
theorem decimalWeeksToTime_27 :
    decimalWeeksToTime (some (27 : ℚ)) = some ⟨27, 0⟩ := by
  have hf : (⌊(27 : ℚ)⌋ : ℤ) = 27 := by norm_num
  have hr : round (((27 : ℚ) - ((27 : ℤ) : ℚ)) * 7) = 0 := by
    norm_num [round_eq]
  simp only [decimalWeeksToTime, hf, hr]
  norm_num

/-- Conversion of 20.14 weeks. -/
theorem decimalWeeksToTime_2014 :
    decimalWeeksToTime (some (1007 / 50 : ℚ)) = some ⟨20, 1⟩ := by
  have hf : (⌊(1007 / 50 : ℚ)⌋ : ℤ) = 20 := by norm_num [Int.floor_eq_iff]
  have hr : round (((1007 / 50 : ℚ) - ((20 : ℤ) : ℚ)) * 7) = 1 := by
    norm_num [round_eq, Int.floor_eq_iff]
  simp only [decimalWeeksToTime, hf, hr]
  norm_num

/-- Point estimate of the illustrative table at 205 mm, evaluated. -/
theorem estimateGestationalAge_specTable_205 :
    (estimateGestationalAge specTable 205).estimatedAge =
      AgeEstimate.pair ⟨27, 0⟩ := by
  simp only [estimateGestationalAge, findWeek_specTable_205]
  norm_num [decimalWeeksToTime_27]

/-! ### Witnesses -/

/-- Witness for C1 at the illustrative table and a 205 mm measurement. -/
theorem estimateGestationalAge_spec_witness :
    (estimateGestationalAge specTable 205).estimatedAge = AgeEstimate.pair ⟨27, 0⟩ ∧
    (estimateGestationalAge specTable 205).ciMin =
      decimalWeeksToTime (findWeekForMetric specTable 205 (fun row => row.mu + 2 * row.sd)) ∧
    (estimateGestationalAge specTable 205).ciMax =
      decimalWeeksToTime (findWeekForMetric specTable 205 (fun row => row.mu - 2 * row.sd)) := by
  have h := estimateGestationalAge_spec specTable 205 27 findWeek_specTable_205
  obtain ⟨wd, hwd, hpair⟩ := h.2.2.1 (by norm_num) (by norm_num)
  have hwd27 : wd = ⟨27, 0⟩ := by
    rw [decimalWeeksToTime_27] at hwd
    exact (Option.some_inj.1 hwd).symm
  exact ⟨hwd27 ▸ hpair, h.2.2.2.1, h.2.2.2.2⟩

/-- Witness for C2: age 50w0d lies above the last table week and the
percentile is Absent. -/
theorem getHcPercentile_none_iff_witness :
    getHcPercentile (fun _ => 1) specTable 50 0 100 = none := by
  have h := getHcPercentile_none_iff (fun _ => 1) specTable specTable_sorted_week
    ⟨14, 80, 6⟩ ⟨40, 330, 12⟩ rfl rfl (by norm_num [specTable]) 50 0 100
  apply h.2
  right
  norm_num

/-- Witness for C3: at 20w0d the interpolated mean measurement scores the
50th percentile. -/
theorem getHcPercentile_at_mean_witness :
    getHcPercentile (fun _ => 1) specTable 20 0 (1790 / 13) = some 50 :=
  getHcPercentile_at_mean (fun _ => 1) rfl specTable 20 0 (1790 / 13)
    (by norm_num) (by norm_num) (by norm_num) (by norm_num)
    (by rw [show (20 : ℚ) + 0 / 7 = 20 by norm_num]
        exact interpolate_specTable_20)

/-- Witness for C4: the inverse estimator succeeds on the illustrative
table. -/
theorem findWeekForMetric_isSome_witness :
    (findWeekForMetric specTable 205 (fun r => r.mu)).isSome = true := by
  obtain ⟨w, hw⟩ := findWeekForMetric_isSome specTable (fun r => r.mu) 205
    (by norm_num [specTable])
  rw [hw]
  rfl

/-- Witness for C5: explicit backward and forward extrapolations on the
illustrative table. -/
theorem findWeekForMetric_extrapolates_witness :
    findWeekForMetric specTable 50 (fun r => r.mu) = some (272 / 25) ∧
    findWeekForMetric specTable 400 (fun r => r.mu) = some (1182 / 25) := by
  have h50 := (findWeekForMetric_extrapolates specTable (fun r => r.mu) 50
    ⟨14, 80⟩ ⟨40, 330⟩ [] specTable_virtual_mu).1 (by norm_num)
  have h400 := (findWeekForMetric_extrapolates specTable (fun r => r.mu) 400
    ⟨14, 80⟩ ⟨40, 330⟩ [] specTable_virtual_mu).2 [] ⟨14, 80⟩ ⟨40, 330⟩
    (by simpa using specTable_virtual_mu) (by norm_num)
  constructor
  · rw [h50]
    norm_num
  · rw [h400]
    norm_num

/-- Witness for C6: 19 + 6.9/7 weeks rounds its days to 7 and normalises
to 20w0d. -/
theorem decimalWeeksToTime_spec_witness :
    decimalWeeksToTime (some (19 + 69 / 70 : ℚ)) = some ⟨20, 0⟩ := by
  have hfl : (⌊(19 + 69 / 70 : ℚ)⌋ : ℤ) = 19 := by norm_num [Int.floor_eq_iff]
  have h := (decimalWeeksToTime_spec.2 (19 + 69 / 70 : ℚ)).1
    (by rw [hfl]; norm_num [round_eq, Int.floor_eq_iff])
  rw [hfl] at h
  simpa using h

/-- Witness for C7 (amended): the exact value at zero and the antisymmetry
instance at `z = 1`. -/
theorem pnorm_antisymm_witness :
    pnorm (fun _ => 1) 0 = 49999985009951 / 100000000000000 ∧
    pnorm (fun _ => 1) (-1) = 1 - pnorm (fun _ => 1) 1 := by
  have h := pnorm_antisymm (fun _ => 1) rfl
  exact ⟨h.1, h.2.2 1 (by norm_num)⟩

/-- Witness for C8: the interpolated mean at week 20 inverts back to
week 20 exactly. -/
theorem findWeekForMetric_roundtrip_witness :
    findWeekForMetric specTable (1790 / 13) (fun r => r.mu) = some 20 :=
  findWeekForMetric_roundtrip specTable specTable_sorted_week_strict
    specTable_sorted_mu_strict 20 (1790 / 13) interpolate_specTable_20

/-- Witness for C9: the interpolated means at weeks 20 and 30 are ordered. -/
theorem interpolate_mono_witness :
    interpolate 20 specTable (fun r => r.pregweek) (fun r => r.mu) =
      some (1790 / 13) ∧
    interpolate 30 specTable (fun r => r.pregweek) (fun r => r.mu) =
      some (3040 / 13) ∧
    (1790 / 13 : ℚ) ≤ 3040 / 13 :=
  ⟨interpolate_specTable_20, interpolate_specTable_30,
    interpolate_mono specTable specTable_sorted_week specTable_sorted_mu
      20 30 (1790 / 13) (3040 / 13) (by norm_num)
      interpolate_specTable_20 interpolate_specTable_30⟩

/-- Witness for C10: a converted pair and the evaluated point estimate both
have days in 0..6. -/
theorem days_component_in_range_witness :
    (0 ≤ (⟨20, 1⟩ : WeeksDays).days ∧ (⟨20, 1⟩ : WeeksDays).days ≤ 6) ∧
    (0 ≤ (⟨27, 0⟩ : WeeksDays).days ∧ (⟨27, 0⟩ : WeeksDays).days ≤ 6) :=
  ⟨days_component_in_range.1 (1007 / 50) ⟨20, 1⟩ decimalWeeksToTime_2014,
    days_component_in_range.2 specTable 205 ⟨27, 0⟩
      (Or.inl estimateGestationalAge_specTable_205)⟩

end StatCalc
